import Mathlib

/-!
Shallow embedding of the semantic retrieval core in
`src/backend/rag_engine.py` (class `RAGEngine`), together with proofs about
the chunking, indexing and search behaviour described in the specification.

Modelling conventions:
* Python machine floats are idealised as real numbers (`ℝ`); embedding
  vectors are lists of rationals (`List ℚ`), so that concrete instances can
  be evaluated exactly.
* The two external collaborators are parameters: `sent_tok` stands for
  `nltk.sent_tokenize` and `encode` for `SentenceTransformer.encode`; the
  spec treats both as opaque capabilities, so all theorems quantify over
  them (or over the vectors they return).
* `np.argsort` is modelled as the stable ascending argsort (indices ordered
  by the lexicographic key (value, index)); numpy's default sort coincides
  with this on the short arrays it insertion-sorts, which covers every
  concrete input evaluated below.
-/

/-! ### Word counting: Python `len(s.split())`.

`str.split()` with no separator splits on runs of whitespace and drops empty
strings, so `len(s.split())` is the number of maximal non-whitespace runs
in `s`.  We count those runs directly over the character list. -/

def countWordsAux : List Char → Bool → Nat
  | [], _ => 0
  | c :: cs, inWord =>
    if c.isWhitespace then countWordsAux cs false
    else (if inWord then 0 else 1) + countWordsAux cs true

/-- Model of Python `len(s.split())` — `wc s` counts, in Python terms, the number of maximal
non-whitespace runs of `s`. -/
def wc (s : String) : Nat :=
  countWordsAux s.data false

/-- Model of Python `" ".join(l)`. -/
def joinSp : List String → String
  | [] => ""
  | [s] => s
  | s :: rest => s ++ " " ++ joinSp rest

/-! ### Python negative-index slice.

Line 60 of `rag_engine.py` takes `current_chunk[-(overlap // 10):]`.
For `k ≥ 1`, `l[-k:]` is the last `min k (len l)` elements; for `k = 0`
the slice is `l[-0:] = l[0:]`, i.e. the whole list. -/

def pyLastSlice (l : List α) (k : Nat) : List α :=
  if k = 0 then l else l.drop (l.length - k)

/-- Model of Python `s.strip()`: remove leading and trailing
whitespace. -/
def pyStrip (s : String) : String :=
  ⟨((s.data.dropWhile Char.isWhitespace).reverse.dropWhile
      Char.isWhitespace).reverse⟩

/-! ### The chunking loop (`index_document`, lines 44–74).

The loop accumulates sentences into `current_chunk` while tracking
`current_length`; it closes a chunk when adding the next sentence would
exceed `chunk_size` and the buffer is non-empty, then seeds the next buffer
with the overlap tail.  `chunkBuffers` returns the closed sentence buffers
in order (the chunk records are built from them below, with `position`
equal to the length of the output list at append time, i.e. the index). -/

def chunkBuffers (chunk_size overlap : Nat) :
    List String → List String → Nat → List (List String)
  | [], current, _ =>
    if current.isEmpty then [] else [current]
  | s :: rest, current, current_length =>
    if current_length + wc s > chunk_size ∧ ¬ current.isEmpty then
      let overlap_sentences :=
        if overlap > 0 then pyLastSlice current (overlap / 10) else []
      current :: chunkBuffers chunk_size overlap rest
        (overlap_sentences ++ [s]) ((overlap_sentences.map wc).sum + wc s)
    else
      chunkBuffers chunk_size overlap rest
        (current ++ [s]) (current_length + wc s)

/-- A chunk record, `{"text": ..., "position": ..., "word_count": ...}`. -/
structure Chunk where
  text : String
  position : Nat
  word_count : Nat
deriving DecidableEq

instance : Inhabited Chunk := ⟨⟨"", 0, 0⟩⟩

/-- Build the chunk record appended at lines 53–57 / 70–74:
`text = " ".join(buffer)`, `word_count = len(text.split())`. -/
def mkChunk (pos : Nat) (buffer : List String) : Chunk :=
  { text := joinSp buffer
    position := pos
    word_count := wc (joinSp buffer) }

/-- Turn the closed buffers into chunk records; the `position` of each
appended chunk is `len(self.chunks)` at append time, i.e. the running
counter `pos`. -/
def chunksFrom (pos : Nat) : List (List String) → List Chunk
  | [] => []
  | b :: bs => mkChunk pos b :: chunksFrom (pos + 1) bs

/-- The full sentence-splitting stage of `index_document`. -/
def splitChunks (chunk_size overlap : Nat) (sentences : List String) :
    List Chunk :=
  chunksFrom 0 (chunkBuffers chunk_size overlap sentences [] 0)

/-! ### Engine state and `index_document` / `get_document_summary`. -/

/-- The mutable state of a `RAGEngine` instance: `self.chunks`,
`self.chunk_embeddings` (an `Option`: `None` until the first successful
indexing) and `self.metadata`. -/
structure RAGEngine where
  chunks : List Chunk
  chunk_embeddings : Option (List (List ℚ))
  metadata : List (String × String)
deriving DecidableEq

/-- A fresh engine (`__init__`): no chunks, `chunk_embeddings = None`. -/
def RAGEngine.init : RAGEngine :=
  { chunks := [], chunk_embeddings := none, metadata := [] }

/-- Model of `index_document` (lines 32–87).  `sent_tok` models `sent_tokenize` and
`encode` models `self.embedding_model.encode` (applied text-by-text; the
source batches the same calls).  Returns the boolean result paired with the
updated engine state.  Note the source clears `self.chunks` first but never
clears `self.chunk_embeddings` on the failure paths. -/
def index_document (sent_tok : String → List String) (encode : String → List ℚ)
    (e : RAGEngine) (full_text : String) (meta : List (String × String))
    (chunk_size overlap : Nat) : Bool × RAGEngine :=
  let e0 : RAGEngine := { e with chunks := [] }
  if full_text = "" ∨ (pyStrip full_text).length < 10 then
    (false, e0)
  else
    let chunks := splitChunks chunk_size overlap (sent_tok full_text)
    let e1 : RAGEngine := { e0 with chunks := chunks }
    if ¬ chunks.isEmpty then
      (true, { e1 with
                chunk_embeddings := some (chunks.map fun c => encode c.text)
                metadata := meta })
    else
      (false, e1)

/-- The record returned by `get_document_summary` (lines 137–143). -/
structure DocSummary where
  chunks_count : Nat
  total_words : Nat
  indexed : Bool
deriving DecidableEq

/-- Model of `get_document_summary`: `indexed` is `self.chunk_embeddings is not None`. -/
def get_document_summary (e : RAGEngine) : DocSummary :=
  { chunks_count := e.chunks.length
    total_words :=
      if e.chunks.isEmpty then 0 else (e.chunks.map (·.word_count)).sum
    indexed := e.chunk_embeddings.isSome }

/-! ### Vectors and cosine similarity.

`sklearn.metrics.pairwise.cosine_similarity([q], embs)[0][i]` is
`dot(q, embs[i]) / (‖q‖ * ‖embs[i]‖)`, with a zero vector normalised to
itself, so the similarity is `0` when either norm vanishes.  Vectors are
exact rationals; the similarity value is a real number (the idealisation of
the float the source computes), hence `cosSim` is noncomputable and
concrete instances are evaluated with `norm_num`. -/

def dot (a b : List ℚ) : ℚ :=
  (List.zipWith (· * ·) a b).sum

noncomputable def cosSim (a b : List ℚ) : ℝ :=
  if dot a a = 0 ∨ dot b b = 0 then 0
  else ((dot a b : ℚ) : ℝ) /
    (Real.sqrt ((dot a a : ℚ) : ℝ) * Real.sqrt ((dot b b : ℚ) : ℝ))

/-- A search result record (lines 108–113). -/
structure SearchResult (α : Type) where
  text : String
  relevance : α
  position : Nat
  word_count : Nat
deriving DecidableEq

/-! ### `search` (lines 89–119).

`np.argsort(similarities)` is modelled as the stable ascending argsort:
the unique enumeration of `0, …, n-1` strictly increasing in the
lexicographic key `(similarities[i], i)`.  The source then reverses it
(`[::-1]`) and walks the result, stopping at the first value below
`min_similarity` and additionally once `len(results) >= top_k` holds after
an append. -/

/-- Strict lexicographic order on indices by `(value, index)`: the order in
which the stable ascending argsort lists them. -/
def keyLT [LinearOrder α] [Inhabited α] (sims : List α) (i j : Nat) : Prop :=
  sims.getD i default < sims.getD j default ∨
    (sims.getD i default = sims.getD j default ∧ i < j)

instance [LinearOrder α] [Inhabited α] (sims : List α) (i j : Nat) :
    Decidable (keyLT sims i j) := by
  unfold keyLT; infer_instance

/-- Insert index `i` into a keyLT-sorted index list. -/
def insertIdxAsc [LinearOrder α] [Inhabited α] (sims : List α) (i : Nat) :
    List Nat → List Nat
  | [] => [i]
  | j :: js =>
    if keyLT sims i j then i :: j :: js
    else j :: insertIdxAsc sims i js

/-- Stable ascending argsort of `sims`: `np.argsort(similarities)`. -/
def argsortAsc [LinearOrder α] [Inhabited α] (sims : List α) : List Nat :=
  (List.range sims.length).foldr (insertIdxAsc sims) []

/-- The result-collection loop (lines 103–116).  `count` is
`len(results)` so far; the loop breaks before appending when the similarity
drops below `min_similarity` and after appending when
`len(results) >= top_k`. -/
def collectIdx [LinearOrder α] [Inhabited α] (sims : List α)
    (min_similarity : α) (top_k : Nat) : List Nat → Nat → List Nat
  | [], _ => []
  | idx :: rest, count =>
    if sims.getD idx default < min_similarity then []
    else if top_k ≤ count + 1 then [idx]
    else idx :: collectIdx sims min_similarity top_k rest (count + 1)

/-- The result record appended for a collected index (lines 108–113). -/
def toResult [Inhabited α] (sims : List α) (chunks : List Chunk) (idx : Nat) :
    SearchResult α :=
  { text := (chunks.getD idx default).text
    relevance := sims.getD idx default
    position := (chunks.getD idx default).position
    word_count := (chunks.getD idx default).word_count }

/-- Ranking, thresholding and truncation given the similarity scores
(lines 101–116). -/
def rankFilter [LinearOrder α] [Inhabited α] (sims : List α)
    (chunks : List Chunk) (top_k : Nat) (min_similarity : α) :
    List (SearchResult α) :=
  (collectIdx sims min_similarity top_k (argsortAsc sims).reverse 0).map
    (toResult sims chunks)

/-- Model of `search` (lines 89–119): guard on an un-indexed engine, embed the query
(`query_embedding` is the vector `encode` returns for it), compute the
cosine similarities against the stored chunk embeddings, then rank, filter
and truncate. -/
noncomputable def search (e : RAGEngine) (query_embedding : List ℚ)
    (top_k : Nat) (min_similarity : ℝ) : List (SearchResult ℝ) :=
  match e.chunk_embeddings with
  | none => []
  | some embs =>
    if e.chunks.isEmpty then []
    else
      rankFilter (embs.map fun v => cosSim query_embedding v)
        e.chunks top_k min_similarity

/-- Dense 0-based positions: chunk `i` of the list records position `i`.
`index_document` always produces chunk lists with this property. -/
def posDense (l : List Chunk) : Prop :=
  ∀ i, i < l.length → (l.getD i default).position = i

instance (l : List Chunk) : Decidable (posDense l) := by
  unfold posDense; infer_instance

/-! ### Concrete fixtures: small indexed engine states used to settle
claims on explicit inputs.  Each is the exact state `index_document`
produces from a concrete document and stub tokenizer/embedder (shown by
`decide` in the theorems that use them). -/

/-- The single chunk of the one-sentence document "alpha beta". -/
def chunkA : Chunk :=
  { text := "alpha beta", position := 0, word_count := 2 }

/-- The second chunk of the two-sentence document
"alpha beta gamma delta" split with `chunk_size = 2`. -/
def chunkB : Chunk :=
  { text := "gamma delta", position := 1, word_count := 2 }

/-- Engine state after indexing "alpha beta" with a stub embedder mapping
every text to `[1]`. -/
def engOne : RAGEngine :=
  { chunks := [chunkA], chunk_embeddings := some [[1]], metadata := [] }

/-- Engine state after indexing "alpha beta" with a stub embedder mapping
every text to `[-1]`. -/
def engNeg : RAGEngine :=
  { chunks := [chunkA], chunk_embeddings := some [[-1]], metadata := [] }

/-- Engine state after indexing the two-sentence document with a stub
embedder mapping every text to `[1]`: two chunks with identical
embeddings, hence tied similarities. -/
def engTie : RAGEngine :=
  { chunks := [chunkA, chunkB], chunk_embeddings := some [[1], [1]],
    metadata := [] }

/-! ### Word-count algebra: joining with single spaces adds word counts. -/

theorem countWordsAux_append (da db : List Char) (inw : Bool) :
    countWordsAux (da ++ ' ' :: db) inw =
      countWordsAux da inw + countWordsAux db false := by
  induction da generalizing inw with
  | nil =>
    simp [countWordsAux]
  | cons c cs ih =>
    by_cases h : c.isWhitespace <;>
      simp [countWordsAux, h, ih] <;> cases inw <;> simp <;> omega

theorem wc_append_space (a b : String) : wc (a ++ " " ++ b) = wc a + wc b := by
  have h : (a ++ " " ++ b).data = a.data ++ ' ' :: b.data := by
    simp [String.data_append]
  unfold wc
  rw [h, countWordsAux_append]

/-- Joining with single spaces adds word counts: Python
`len(" ".join(l).split())` is the sum of the word counts of `l`. -/
theorem wc_joinSp (l : List String) : wc (joinSp l) = (l.map wc).sum := by
  induction l with
  | nil => simp [joinSp, wc, countWordsAux]
  | cons s rest ih =>
    cases rest with
    | nil => simp [joinSp]
    | cons t ts =>
      rw [show joinSp (s :: t :: ts) = s ++ " " ++ joinSp (t :: ts) from rfl,
        wc_append_space, ih]
      simp

/-! ### The argsort order is a strict total order on indices. -/

theorem keyLT_irrefl [LinearOrder α] [Inhabited α] (sims : List α) (i : Nat) :
    ¬ keyLT sims i i := by
  simp [keyLT]

theorem keyLT_trans [LinearOrder α] [Inhabited α] (sims : List α)
    (i j k : Nat) (h1 : keyLT sims i j) (h2 : keyLT sims j k) :
    keyLT sims i k := by
  unfold keyLT at h1 h2 ⊢
  rcases h1 with h1 | ⟨h1, h1'⟩ <;> rcases h2 with h2 | ⟨h2, h2'⟩
  · exact Or.inl (lt_trans h1 h2)
  · exact Or.inl (lt_of_lt_of_le h1 (le_of_eq h2))
  · exact Or.inl (lt_of_le_of_lt (le_of_eq h1) h2)
  · exact Or.inr ⟨h1.trans h2, lt_trans h1' h2'⟩

theorem keyLT_total [LinearOrder α] [Inhabited α] (sims : List α)
    (i j : Nat) (hne : i ≠ j) (h : ¬ keyLT sims i j) : keyLT sims j i := by
  unfold keyLT at h ⊢
  push_neg at h
  rcases lt_trichotomy (sims.getD j default) (sims.getD i default) with
    h' | h' | h'
  · exact Or.inl h'
  · refine Or.inr ⟨h', ?_⟩
    have := h.2 h'.symm
    omega
  · exact absurd h' (not_lt.mpr h.1)

/-! ### Insertion and argsort lemmas. -/

theorem mem_insertIdxAsc [LinearOrder α] [Inhabited α] (sims : List α)
    (i j : Nat) (l : List Nat) :
    j ∈ insertIdxAsc sims i l ↔ j = i ∨ j ∈ l := by
  induction l with
  | nil => simp [insertIdxAsc]
  | cons a as ih =>
    by_cases h : keyLT sims i a <;> simp [insertIdxAsc, h, ih] <;> tauto

theorem length_insertIdxAsc [LinearOrder α] [Inhabited α] (sims : List α)
    (i : Nat) (l : List Nat) :
    (insertIdxAsc sims i l).length = l.length + 1 := by
  induction l with
  | nil => rfl
  | cons a as ih =>
    by_cases h : keyLT sims i a <;> simp [insertIdxAsc, h, ih]

theorem pairwise_insertIdxAsc [LinearOrder α] [Inhabited α] (sims : List α)
    (i : Nat) (l : List Nat) (hi : i ∉ l) (hl : l.Pairwise (keyLT sims)) :
    (insertIdxAsc sims i l).Pairwise (keyLT sims) := by
  induction l with
  | nil => simp [insertIdxAsc]
  | cons a as ih =>
    rw [List.pairwise_cons] at hl
    obtain ⟨ha, has⟩ := hl
    have hia : i ≠ a := fun hh => hi (hh ▸ List.mem_cons_self a as)
    have hias : i ∉ as := fun hh => hi (List.mem_cons_of_mem a hh)
    by_cases h : keyLT sims i a
    · simp only [insertIdxAsc, if_pos h]
      refine List.Pairwise.cons ?_ (List.Pairwise.cons ha has)
      intro b hb
      rcases List.mem_cons.mp hb with rfl | hb
      · exact h
      · exact keyLT_trans sims i a b h (ha b hb)
    · simp only [insertIdxAsc, if_neg h]
      refine List.Pairwise.cons ?_ (ih hias has)
      intro b hb
      rcases (mem_insertIdxAsc sims i b as).mp hb with rfl | hb
      · exact keyLT_total sims b a hia h
      · exact ha b hb

theorem mem_foldr_insert [LinearOrder α] [Inhabited α] (sims : List α)
    (L : List Nat) (j : Nat) :
    j ∈ L.foldr (insertIdxAsc sims) [] ↔ j ∈ L := by
  induction L with
  | nil => simp
  | cons a as ih => simp [List.foldr_cons, mem_insertIdxAsc, ih]

theorem pairwise_foldr_insert [LinearOrder α] [Inhabited α] (sims : List α)
    (L : List Nat) (hL : L.Nodup) :
    (L.foldr (insertIdxAsc sims) []).Pairwise (keyLT sims) := by
  induction L with
  | nil => simp
  | cons a as ih =>
    rw [List.foldr_cons]
    refine pairwise_insertIdxAsc sims a _ ?_ (ih (List.nodup_cons.mp hL).2)
    rw [mem_foldr_insert]
    exact (List.nodup_cons.mp hL).1

theorem mem_argsortAsc [LinearOrder α] [Inhabited α] (sims : List α)
    (i : Nat) : i ∈ argsortAsc sims ↔ i < sims.length := by
  unfold argsortAsc
  rw [mem_foldr_insert]
  exact List.mem_range

theorem pairwise_argsortAsc [LinearOrder α] [Inhabited α] (sims : List α) :
    (argsortAsc sims).Pairwise (keyLT sims) :=
  pairwise_foldr_insert sims _ (List.nodup_range _)

theorem length_argsortAsc [LinearOrder α] [Inhabited α] (sims : List α) :
    (argsortAsc sims).length = sims.length := by
  unfold argsortAsc
  have h : ∀ L : List Nat, (L.foldr (insertIdxAsc sims) []).length = L.length := by
    intro L
    induction L with
    | nil => rfl
    | cons a as ih =>
      rw [List.foldr_cons, length_insertIdxAsc, ih]
      simp
  rw [h, List.length_range]

/-! ### Collection-loop lemmas. -/

theorem collectIdx_sublist [LinearOrder α] [Inhabited α] (sims : List α)
    (m : α) (k : Nat) (l : List Nat) (c : Nat) :
    List.Sublist (collectIdx sims m k l c) l := by
  induction l generalizing c with
  | nil => simp [collectIdx]
  | cons idx rest ih =>
    simp only [collectIdx]
    split
    · exact List.nil_sublist _
    · split
      · exact (List.nil_sublist rest).cons₂ idx
      · exact (ih (c + 1)).cons₂ idx

theorem mem_collectIdx [LinearOrder α] [Inhabited α] {sims : List α}
    {m : α} {k : Nat} {l : List Nat} {c x : Nat}
    (hx : x ∈ collectIdx sims m k l c) :
    x ∈ l ∧ m ≤ sims.getD x default := by
  induction l generalizing c with
  | nil => simp [collectIdx] at hx
  | cons idx rest ih =>
    simp only [collectIdx] at hx
    split at hx
    · simp at hx
    · rename_i h1
      split at hx
      · rw [List.mem_singleton] at hx
        subst hx
        exact ⟨List.mem_cons_self _ _, le_of_not_lt h1⟩
      · rcases List.mem_cons.mp hx with rfl | hx'
        · exact ⟨List.mem_cons_self _ _, le_of_not_lt h1⟩
        · obtain ⟨h2, h3⟩ := ih hx'
          exact ⟨List.mem_cons_of_mem _ h2, h3⟩

theorem length_collectIdx_le [LinearOrder α] [Inhabited α] (sims : List α)
    (m : α) (k : Nat) (l : List Nat) (c : Nat) (hck : c < k) :
    (collectIdx sims m k l c).length ≤ k - c := by
  induction l generalizing c with
  | nil => simp [collectIdx]
  | cons idx rest ih =>
    simp only [collectIdx]
    split
    · simp
    · split
      · simp
        omega
      · rename_i h2
        have hck' : c + 1 < k := by omega
        have := ih (c + 1) hck'
        simp only [List.length_cons]
        omega

/-- In a list sorted descending in the argsort key, the head's similarity
dominates every member's. -/
theorem getD_le_head_of_pairwise [LinearOrder α] [Inhabited α]
    {sims : List α} {j : Nat} {t : List Nat}
    (hp : (j :: t).Pairwise (fun a b => keyLT sims b a)) {i : Nat}
    (hi : i ∈ j :: t) : sims.getD i default ≤ sims.getD j default := by
  rcases List.mem_cons.mp hi with rfl | hi
  · exact le_refl _
  · have h := (List.pairwise_cons.mp hp).1 i hi
    rcases h with h | ⟨h, _⟩
    · exact le_of_lt h
    · exact le_of_eq h

/-! ### Lemmas about `rankFilter`. -/

theorem mem_rankFilter [LinearOrder α] [Inhabited α] {sims : List α}
    {chunks : List Chunk} {k : Nat} {m : α} {r : SearchResult α}
    (hr : r ∈ rankFilter sims chunks k m) :
    ∃ idx, idx < sims.length ∧ r = toResult sims chunks idx ∧
      m ≤ sims.getD idx default := by
  unfold rankFilter at hr
  rcases List.mem_map.mp hr with ⟨idx, hidx, rfl⟩
  obtain ⟨hmem, hge⟩ := mem_collectIdx hidx
  rw [List.mem_reverse] at hmem
  exact ⟨idx, (mem_argsortAsc sims idx).mp hmem, rfl, hge⟩

theorem length_rankFilter_le [LinearOrder α] [Inhabited α] (sims : List α)
    (chunks : List Chunk) (k : Nat) (m : α) (hk : 1 ≤ k) :
    (rankFilter sims chunks k m).length ≤ k := by
  unfold rankFilter
  rw [List.length_map]
  have h := length_collectIdx_le sims m k (argsortAsc sims).reverse 0
    (by omega)
  omega

theorem rankFilter_eq_nil [LinearOrder α] [Inhabited α] (sims : List α)
    (chunks : List Chunk) (k : Nat) (m : α)
    (hall : ∀ i, i < sims.length → sims.getD i default < m) :
    rankFilter sims chunks k m = [] := by
  unfold rankFilter
  rcases h : (argsortAsc sims).reverse with _ | ⟨j, t⟩
  · simp [collectIdx]
  · have hj : j < sims.length := by
      have hmem : j ∈ (argsortAsc sims).reverse := h ▸ List.mem_cons_self j t
      rw [List.mem_reverse, mem_argsortAsc] at hmem
      exact hmem
    simp only [collectIdx, if_pos (hall j hj), List.map_nil]

/-- The returned results are strictly descending in relevance; equal
relevance is ordered by strictly descending position (the reversal of the
stable ascending argsort puts the later-indexed of two tied chunks first). -/
theorem pairwise_rankFilter [LinearOrder α] [Inhabited α] (sims : List α)
    (chunks : List Chunk) (k : Nat) (m : α)
    (hd : posDense chunks) (hlen : sims.length = chunks.length) :
    (rankFilter sims chunks k m).Pairwise (fun r1 r2 =>
      r2.relevance < r1.relevance ∨
        (r2.relevance = r1.relevance ∧ r2.position < r1.position)) := by
  unfold rankFilter
  rw [List.pairwise_map]
  have hrev : ((argsortAsc sims).reverse).Pairwise
      (fun a b => keyLT sims b a) := by
    rw [List.pairwise_reverse]
    exact pairwise_argsortAsc sims
  have hsub : (collectIdx sims m k (argsortAsc sims).reverse 0).Pairwise
      (fun a b => keyLT sims b a) :=
    hrev.sublist (collectIdx_sublist sims m k _ 0)
  refine List.Pairwise.imp_of_mem ?_ hsub
  intro a b ha hb hk
  have haLen : a < chunks.length := by
    rw [← hlen]
    have := (mem_collectIdx ha).1
    rw [List.mem_reverse, mem_argsortAsc] at this
    exact this
  have hbLen : b < chunks.length := by
    rw [← hlen]
    have := (mem_collectIdx hb).1
    rw [List.mem_reverse, mem_argsortAsc] at this
    exact this
  rcases hk with hk | ⟨hk1, hk2⟩
  · left
    simpa [toResult] using hk
  · right
    constructor
    · simpa [toResult] using hk1
    · simp only [toResult]
      rw [hd a haLen, hd b hbLen]
      exact hk2

/-- With `top_k = 0` and at least one similarity reaching the floor, the
collection loop appends the best match and only then notices
`len(results) >= top_k`, returning exactly one result. -/
theorem length_rankFilter_top0 [LinearOrder α] [Inhabited α] (sims : List α)
    (chunks : List Chunk) (m : α) (hex : ∃ v ∈ sims, m ≤ v) :
    (rankFilter sims chunks 0 m).length = 1 := by
  unfold rankFilter
  obtain ⟨v, hv, hmv⟩ := hex
  obtain ⟨i, hi, rfl⟩ := List.mem_iff_getElem.mp hv
  rcases h : (argsortAsc sims).reverse with _ | ⟨j, t⟩
  · exfalso
    have hmem : i ∈ (argsortAsc sims).reverse := by
      rw [List.mem_reverse, mem_argsortAsc]
      exact hi
    rw [h] at hmem
    simp at hmem
  · have hp : (j :: t).Pairwise (fun a b => keyLT sims b a) := by
      rw [← h, List.pairwise_reverse]
      exact pairwise_argsortAsc sims
    have hiin : i ∈ j :: t := by
      rw [← h, List.mem_reverse, mem_argsortAsc]
      exact hi
    have hle : sims[i] ≤ sims.getD j default := by
      have hgd := getD_le_head_of_pairwise hp hiin
      rwa [List.getD_eq_getElem sims default hi] at hgd
    have hjm : ¬ sims.getD j default < m := not_lt.mpr (le_trans hmv hle)
    simp only [collectIdx, if_neg hjm, if_pos (Nat.zero_le 1),
      List.map_cons, List.map_nil, List.length_cons, List.length_nil]

/-! ### Lemmas about chunk construction. -/

theorem chunksFrom_length (bs : List (List String)) (pos : Nat) :
    (chunksFrom pos bs).length = bs.length := by
  induction bs generalizing pos with
  | nil => rfl
  | cons b bs ih => simp [chunksFrom, ih]

theorem chunksFrom_getD (bs : List (List String)) (pos i : Nat)
    (h : i < bs.length) :
    (chunksFrom pos bs).getD i default = mkChunk (pos + i) (bs.getD i []) := by
  induction bs generalizing pos i with
  | nil => simp at h
  | cons b bs ih =>
    cases i with
    | zero => simp [chunksFrom]
    | succ n =>
      have hn : n < bs.length := by simpa using h
      simp only [chunksFrom, List.getD_cons_succ]
      rw [ih (pos + 1) n hn]
      congr 1
      omega

theorem posDense_splitChunks (chunk_size overlap : Nat)
    (sentences : List String) :
    posDense (splitChunks chunk_size overlap sentences) := by
  intro i hi
  unfold splitChunks at hi ⊢
  rw [chunksFrom_length] at hi
  rw [chunksFrom_getD _ 0 i hi]
  simp [mkChunk]

/-! ### The cosine similarity lies in `[-1, 1]` (Cauchy–Schwarz). -/

theorem dot_cons (x y : ℚ) (a b : List ℚ) :
    dot (x :: a) (y :: b) = x * y + dot a b := by
  simp [dot]

theorem dot_self_nonneg (a : List ℚ) : 0 ≤ dot a a := by
  induction a with
  | nil => exact le_refl 0
  | cons x xs ih =>
    rw [dot_cons]
    nlinarith [mul_self_nonneg x]

theorem dot_sq_le (a : List ℚ) : ∀ b, dot a b ^ 2 ≤ dot a a * dot b b := by
  induction a with
  | nil => intro b; simp [dot]
  | cons x xs ih =>
    intro b
    cases b with
    | nil => simp [dot]
    | cons y ys =>
      have h1 := ih ys
      have h2 := dot_self_nonneg xs
      have h3 := dot_self_nonneg ys
      rw [dot_cons, dot_cons, dot_cons]
      by_cases hA : dot xs xs = 0
      · have hd : dot xs ys = 0 := by
          have h0 : dot xs ys ^ 2 ≤ 0 := by rw [hA] at h1; linarith
          have hsq : dot xs ys ^ 2 = 0 := le_antisymm h0 (sq_nonneg _)
          exact sq_eq_zero_iff.mp hsq
        rw [hA, hd]
        nlinarith [mul_nonneg (mul_self_nonneg x) h3]
      · have hA' : 0 < dot xs xs := lt_of_le_of_ne h2 (Ne.symm hA)
        nlinarith [sq_nonneg (x * dot xs ys - y * dot xs xs),
          mul_nonneg (sq_nonneg x) (sub_nonneg.2 h1),
          mul_nonneg h2 (sub_nonneg.2 h1), hA', h3]

theorem abs_cosSim_le_one (a b : List ℚ) : |cosSim a b| ≤ 1 := by
  unfold cosSim
  split
  · norm_num
  · rename_i h
    push_neg at h
    obtain ⟨hA, hB⟩ := h
    have hA' : (0:ℝ) < ((dot a a : ℚ) : ℝ) := by
      exact_mod_cast lt_of_le_of_ne (dot_self_nonneg a) (Ne.symm hA)
    have hB' : (0:ℝ) < ((dot b b : ℚ) : ℝ) := by
      exact_mod_cast lt_of_le_of_ne (dot_self_nonneg b) (Ne.symm hB)
    have hsA : 0 < Real.sqrt ((dot a a : ℚ) : ℝ) := Real.sqrt_pos.mpr hA'
    have hsB : 0 < Real.sqrt ((dot b b : ℚ) : ℝ) := Real.sqrt_pos.mpr hB'
    rw [abs_div, abs_of_pos (mul_pos hsA hsB), div_le_one (mul_pos hsA hsB)]
    have hcs : ((dot a b : ℚ) : ℝ) ^ 2 ≤
        ((dot a a : ℚ) : ℝ) * ((dot b b : ℚ) : ℝ) := by
      exact_mod_cast dot_sq_le a b
    calc |((dot a b : ℚ) : ℝ)|
        = Real.sqrt (((dot a b : ℚ) : ℝ) ^ 2) := (Real.sqrt_sq_eq_abs _).symm
      _ ≤ Real.sqrt (((dot a a : ℚ) : ℝ) * ((dot b b : ℚ) : ℝ)) :=
          Real.sqrt_le_sqrt hcs
      _ = Real.sqrt ((dot a a : ℚ) : ℝ) * Real.sqrt ((dot b b : ℚ) : ℝ) :=
          Real.sqrt_mul hA'.le _

theorem cosSim_le_one (a b : List ℚ) : cosSim a b ≤ 1 :=
  le_trans (le_abs_self _) (abs_cosSim_le_one a b)

theorem neg_one_le_cosSim (a b : List ℚ) : -1 ≤ cosSim a b :=
  (abs_le.mp (abs_cosSim_le_one a b)).1

/-! ### Evaluating the cosine similarity on tiny concrete vectors. -/

theorem cosSim_one_one : cosSim [(1:ℚ)] [1] = 1 := by
  unfold cosSim
  rw [if_neg (by norm_num [dot])]
  norm_num [dot, Real.sqrt_one]

theorem cosSim_one_negone : cosSim [(1:ℚ)] [-1] = -1 := by
  unfold cosSim
  rw [if_neg (by norm_num [dot])]
  norm_num [dot, Real.sqrt_one]

/-! ### Engine-level lemmas. -/

/-- Whenever `index_document` returns `False`, it has left `self.chunks`
empty: the chunk list is cleared before validation, and the final `False`
branch is only reached with an empty chunk list. -/
theorem index_document_false_chunks (st : String → List String)
    (enc : String → List ℚ) (e : RAGEngine) (txt : String)
    (meta : List (String × String)) (cs ov : Nat)
    (h : (index_document st enc e txt meta cs ov).1 = false) :
    (index_document st enc e txt meta cs ov).2.chunks = [] := by
  by_cases h1 : txt = "" ∨ (pyStrip txt).length < 10
  · simp [index_document, h1]
  · by_cases h2 : (splitChunks cs ov (st txt)).isEmpty
    · rw [List.isEmpty_iff] at h2
      simp [index_document, h1, h2]
    · exfalso
      simp [index_document, h1, h2] at h

/-- On an engine whose chunk list is empty, `search` returns `[]`
(lines 91–93). -/
theorem search_eq_nil_of_chunks_nil (e : RAGEngine) (q : List ℚ) (k : Nat)
    (m : ℝ) (h : e.chunks = []) : search e q k m = [] := by
  unfold search
  cases he : e.chunk_embeddings with
  | none => rfl
  | some embs => simp [h]

/-- With `overlap = 0` the buffer invariant holds: every closed buffer
either fits the `chunk_size` budget or is a single sentence. -/
theorem chunkBuffers_overlap0_bound (cs : Nat) :
    ∀ (ss current : List String) (len : Nat),
      len = (current.map wc).sum →
      ((current.map wc).sum ≤ cs ∨ current.length = 1) →
      ∀ b ∈ chunkBuffers cs 0 ss current len,
        (b.map wc).sum ≤ cs ∨ b.length = 1 := by
  intro ss
  induction ss with
  | nil =>
    intro current len _hlen hinv b hb
    simp only [chunkBuffers] at hb
    split at hb
    · simp at hb
    · rw [List.mem_singleton] at hb
      subst hb
      exact hinv
  | cons s rest ih =>
    intro current len hlen hinv b hb
    simp only [chunkBuffers, gt_iff_lt, lt_self_iff_false, if_false] at hb
    split at hb
    · rcases List.mem_cons.mp hb with rfl | hb'
      · exact hinv
      · refine ih [s] (wc s) (by simp) (Or.inr rfl) b ?_
        simpa using hb'
    · rename_i hcond
      refine ih (current ++ [s]) (len + wc s) (by simp [hlen]) ?_ b hb
      by_cases hemp : current.isEmpty
      · rw [List.isEmpty_iff] at hemp
        subst hemp
        exact Or.inr (by simp)
      · push_neg at hcond
        have hle : len + wc s ≤ cs := by
          by_contra hgt
          exact hemp (hcond (lt_of_not_le hgt))
        left
        simp only [List.map_append, List.sum_append]
        simp [← hlen]
        omega

/-! ### Concrete evaluation of `search` on the fixtures. -/

theorem search_engOne_eval :
    search engOne [1] 3 (3/10 : ℝ) =
      [{ text := "alpha beta", relevance := 1, position := 0,
         word_count := 2 }] := by
  have h0 : search engOne [1] 3 (3/10 : ℝ) =
      rankFilter [cosSim [1] [1]] [chunkA] 3 (3/10 : ℝ) := rfl
  rw [h0, cosSim_one_one]
  unfold rankFilter
  rw [show (argsortAsc [(1:ℝ)]).reverse = [0] from rfl]
  simp only [collectIdx]
  norm_num [List.getD, toResult, chunkA]

theorem search_engOne_top0_eval :
    search engOne [1] 0 (3/10 : ℝ) =
      [{ text := "alpha beta", relevance := 1, position := 0,
         word_count := 2 }] := by
  have h0 : search engOne [1] 0 (3/10 : ℝ) =
      rankFilter [cosSim [1] [1]] [chunkA] 0 (3/10 : ℝ) := rfl
  rw [h0, cosSim_one_one]
  unfold rankFilter
  rw [show (argsortAsc [(1:ℝ)]).reverse = [0] from rfl]
  simp only [collectIdx]
  norm_num [List.getD, toResult, chunkA]

theorem search_engNeg_eval :
    search engNeg [1] 3 (-2 : ℝ) =
      [{ text := "alpha beta", relevance := -1, position := 0,
         word_count := 2 }] := by
  have h0 : search engNeg [1] 3 (-2 : ℝ) =
      rankFilter [cosSim [1] [-1]] [chunkA] 3 (-2 : ℝ) := rfl
  rw [h0, cosSim_one_negone]
  unfold rankFilter
  rw [show (argsortAsc [(-1:ℝ)]).reverse = [0] from rfl]
  simp only [collectIdx]
  norm_num [List.getD, toResult, chunkA]

theorem search_engTie_eval :
    search engTie [1] 3 (3/10 : ℝ) =
      [{ text := "gamma delta", relevance := 1, position := 1,
         word_count := 2 },
       { text := "alpha beta", relevance := 1, position := 0,
         word_count := 2 }] := by
  have h0 : search engTie [1] 3 (3/10 : ℝ) =
      rankFilter [cosSim [1] [1], cosSim [1] [1]] [chunkA, chunkB] 3
        (3/10 : ℝ) := rfl
  rw [h0]
  simp only [cosSim_one_one]
  unfold rankFilter
  have hk : keyLT [(1:ℝ), 1] 0 1 := by norm_num [keyLT, List.getD]
  have harg : (argsortAsc [(1:ℝ), 1]).reverse = [1, 0] := by
    have h2 : insertIdxAsc [(1:ℝ), 1] 0 [1] = [0, 1] := by
      simp only [insertIdxAsc]
      rw [if_pos hk]
    have h3 : argsortAsc [(1:ℝ), 1] = [0, 1] := by
      show insertIdxAsc [(1:ℝ), 1] 0 (insertIdxAsc [(1:ℝ), 1] 1 []) = [0, 1]
      rw [show insertIdxAsc [(1:ℝ), 1] 1 [] = [1] from rfl, h2]
    rw [h3]
    rfl
  rw [harg]
  simp only [collectIdx]
  norm_num [List.getD, toResult, chunkA, chunkB]

/-! ## The claims. -/

/-- C1 (counterexample): the claim "search returns at most top_k results"
fails at `top_k = 0`: on an engine obtained by indexing the document
"alpha beta" (shown by the first conjunct), a search with `top_k = 0` and a
matching chunk returns one result, not zero. -/
theorem C1_counterexample :
    (index_document (fun _ => ["alpha beta"]) (fun _ => [1]) RAGEngine.init
        ("alpha beta") [] 400 50) = (true, engOne) ∧
    (search engOne [1] 0 (3/10 : ℝ)).length = 1 ∧ ¬ ((1:Nat) ≤ 0) := by
  refine ⟨by decide, ?_, by omega⟩
  rw [search_engOne_top0_eval]
  rfl

/-- C1 (amended): provided `top_k ≥ 1`, `search` returns at most `top_k`
results; every returned result has `relevance ≥ min_similarity`; and if
every chunk's similarity is below `min_similarity`, `search` returns the
empty sequence. -/
theorem C1_amended (e : RAGEngine) (q : List ℚ) (k : Nat) (m : ℝ) :
    (1 ≤ k → (search e q k m).length ≤ k) ∧
    (∀ r ∈ search e q k m, m ≤ r.relevance) ∧
    ((∀ embs, e.chunk_embeddings = some embs →
        ∀ v ∈ embs.map (fun w => cosSim q w), v < m) →
      search e q k m = []) := by
  unfold search
  cases hce : e.chunk_embeddings with
  | none =>
    exact ⟨fun _ => by simp, by simp, fun _ => rfl⟩
  | some embs =>
    dsimp only
    by_cases hch : e.chunks.isEmpty
    · rw [if_pos hch]
      exact ⟨fun _ => by simp, by simp, fun _ => rfl⟩
    · rw [if_neg hch]
      refine ⟨fun hk => length_rankFilter_le _ _ _ _ hk, ?_, ?_⟩
      · intro r hr
        obtain ⟨idx, hidx, rfl, hge⟩ := mem_rankFilter hr
        exact hge
      · intro hall
        apply rankFilter_eq_nil
        intro i hi
        have hmem : (embs.map fun w => cosSim q w).getD i default ∈
            embs.map fun w => cosSim q w := by
          rw [List.getD_eq_getElem _ _ hi]
          exact List.getElem_mem _
        exact hall embs rfl _ hmem

/-- C1 (witness): on the indexed engine `engOne`, with `top_k = 3` and
`min_similarity = 2` (above the only similarity, which is 1), the length
bound holds and the result is empty. -/
theorem C1_witness :
    (search engOne [1] 3 (2 : ℝ)).length ≤ 3 ∧
      search engOne [1] 3 (2 : ℝ) = [] := by
  constructor
  · exact (C1_amended engOne [1] 3 2).1 (by omega)
  · refine (C1_amended engOne [1] 3 2).2.2 ?_
    intro embs hembs v hv
    have hse : embs = [[1]] := (Option.some.inj hembs).symm
    subst hse
    rw [show ([[(1:ℚ)]].map fun w => cosSim [1] w) = [cosSim [1] [1]]
      from rfl, List.mem_singleton] at hv
    subst hv
    rw [cosSim_one_one]
    norm_num

/-- C2 (counterexample): on an engine obtained by indexing a two-chunk
document whose chunks have identical embeddings (tied relevance 1), search
returns the chunk at position 1 before the chunk at position 0 — ties are
broken by descending position, not ascending as claimed. -/
theorem C2_counterexample :
    (index_document (fun _ => ["alpha beta", "gamma delta"]) (fun _ => [1])
        RAGEngine.init ("alpha beta gamma delta") [] 2 0) = (true, engTie) ∧
    (search engTie [1] 3 (3/10 : ℝ)).map (fun r => r.relevance) =
      [(1:ℝ), 1] ∧
    (search engTie [1] 3 (3/10 : ℝ)).map (fun r => r.position) = [1, 0] := by
  refine ⟨by decide, ?_, ?_⟩ <;> rw [search_engTie_eval] <;> rfl

/-- C2 (amended): for every indexed engine (dense positions, parallel
embeddings), search results are sorted by strictly descending relevance,
and any two results with equal relevance appear in strictly DESCENDING
order of their position field (the later-occurring chunk comes first,
because `[::-1]` reverses the stable ascending argsort). -/
theorem C2_amended (e : RAGEngine) (embs : List (List ℚ)) (q : List ℚ)
    (k : Nat) (m : ℝ) (hce : e.chunk_embeddings = some embs)
    (hlen : embs.length = e.chunks.length) (hd : posDense e.chunks) :
    (search e q k m).Pairwise (fun r1 r2 =>
      r2.relevance < r1.relevance ∨
        (r2.relevance = r1.relevance ∧ r2.position < r1.position)) := by
  unfold search
  rw [hce]
  dsimp only
  by_cases hch : e.chunks.isEmpty
  · rw [if_pos hch]
    exact List.Pairwise.nil
  · rw [if_neg hch]
    exact pairwise_rankFilter _ _ k m hd (by simpa using hlen)

/-- C2 (witness): the amended ordering holds on the concrete tied-engine
search. -/
theorem C2_witness :
    (search engTie [1] 3 (3/10 : ℝ)).Pairwise (fun r1 r2 =>
      r2.relevance < r1.relevance ∨
        (r2.relevance = r1.relevance ∧ r2.position < r1.position)) :=
  C2_amended engTie [[1], [1]] [1] 3 (3/10 : ℝ) rfl (by decide) (by decide)

/-- C3 (code bug): at `overlap = 5` the spec's overlap tail is the last
`floor(5/10) = 0` sentences, i.e. no carry-over; but the code's
`current_chunk[-(overlap // 10):]` is `current_chunk[-0:]`, the ENTIRE
buffer, so every closed buffer is carried whole into the next chunk. -/
theorem C3_overlap_slice_bug :
    (5 : Nat) / 10 = 0 ∧
    pyLastSlice ["a b c"] (5 / 10) = ["a b c"] ∧
    chunkBuffers 5 5 ["a b c", "d e f", "g h i"] [] 0 =
      [["a b c"], ["a b c", "d e f"], ["a b c", "d e f", "g h i"]] := by
  exact ⟨rfl, rfl, by decide⟩

/-- C4 (counterexample): with `chunk_size = 5` and `overlap = 50`, the
overlap tail re-seeds the buffer so that the second chunk consists of two
sentences yet has `word_count = 6 > 5`: the single-sentence-overflow
exception does not cover it. -/
theorem C4_counterexample :
    (chunkBuffers 5 50 ["a b c", "d e f", "g h i"] [] 0).getD 1 [] =
      ["a b c", "d e f"] ∧
    ((splitChunks 5 50 ["a b c", "d e f", "g h i"]).getD 1
        default).word_count = 6 ∧ ¬ ((6:Nat) ≤ 5) := by
  exact ⟨by decide, by decide, by omega⟩

/-- C4 (amended): with `overlap = 0` every chunk's `word_count` is at most
`chunk_size` unless the chunk consists of exactly one sentence; with
`overlap > 0` the seeded tail can push multi-sentence chunks over budget
(see the counterexample). -/
theorem C4_amended (chunk_size : Nat) (sentences : List String) (i : Nat)
    (h : i < (splitChunks chunk_size 0 sentences).length) :
    ((splitChunks chunk_size 0 sentences).get ⟨i, h⟩).word_count ≤
        chunk_size ∨
      ((chunkBuffers chunk_size 0 sentences [] 0).getD i []).length = 1 := by
  have hlen : (splitChunks chunk_size 0 sentences).length =
      (chunkBuffers chunk_size 0 sentences [] 0).length :=
    chunksFrom_length _ 0
  have hblen : i < (chunkBuffers chunk_size 0 sentences [] 0).length := by
    omega
  have hb : (chunkBuffers chunk_size 0 sentences [] 0).getD i [] ∈
      chunkBuffers chunk_size 0 sentences [] 0 := by
    rw [List.getD_eq_getElem _ _ hblen]
    exact List.getElem_mem _
  have hbound := chunkBuffers_overlap0_bound chunk_size sentences [] 0 rfl
    (Or.inl (by simp)) _ hb
  have hg : (splitChunks chunk_size 0 sentences).get ⟨i, h⟩ =
      mkChunk i ((chunkBuffers chunk_size 0 sentences [] 0).getD i []) := by
    have hgd := chunksFrom_getD (chunkBuffers chunk_size 0 sentences [] 0)
      0 i hblen
    rw [List.getD_eq_getElem _ default (by exact h)] at hgd
    simpa using hgd
  rcases hbound with hle | hone
  · left
    rw [hg]
    show wc (joinSp _) ≤ chunk_size
    rw [wc_joinSp]
    exact hle
  · right
    exact hone

/-- C4 (witness): the amended claim at a concrete input (the spec's §8
scenario, `chunk_size = 4`, `overlap = 0`). -/
theorem C4_witness :
    ((splitChunks 4 0
        ["Sentence one.", "Sentence two.", "Sentence three."]).get
      ⟨0, by decide⟩).word_count ≤ 4 ∨
    ((chunkBuffers 4 0 ["Sentence one.", "Sentence two.", "Sentence three."]
        [] 0).getD 0 []).length = 1 :=
  C4_amended 4 ["Sentence one.", "Sentence two.", "Sentence three."] 0
    (by decide)

/-- C5 (counterexample): on the engine left by a successful index of
"alpha beta" (first conjunct), `indexDocument("")` returns false but a
subsequent `summary()` reports `indexed == true`: the previous index's
`chunk_embeddings` is NOT discarded on the failure path. -/
theorem C5_counterexample :
    (index_document (fun _ => ["alpha beta"]) (fun _ => [1]) RAGEngine.init
        ("alpha beta") [] 400 50).2 = engOne ∧
    (index_document (fun _ => []) (fun _ => []) engOne ("") [] 400 50).1 =
      false ∧
    (get_document_summary
        (index_document (fun _ => []) (fun _ => []) engOne ("") [] 400
          50).2).indexed = true := by
  exact ⟨by decide, by decide, by decide⟩

/-- C5 (amended): `indexDocument("")` always returns false and clears the
chunk list (`chunks_count = 0`), but `summary().indexed` reflects the stale
`chunk_embeddings`: it is false exactly when no document had been
successfully indexed before — a failed re-index does not discard the
previous embeddings. -/
theorem C5_amended (st : String → List String) (enc : String → List ℚ)
    (e : RAGEngine) (meta : List (String × String)) (cs ov : Nat) :
    (index_document st enc e ("") meta cs ov).1 = false ∧
    (get_document_summary
        (index_document st enc e ("") meta cs ov).2).chunks_count = 0 ∧
    (get_document_summary (index_document st enc e ("") meta cs ov).2).indexed
      = e.chunk_embeddings.isSome := by
  have h1 : ("" : String) = "" ∨ (pyStrip ("" : String)).length < 10 :=
    Or.inl rfl
  simp [index_document, get_document_summary, h1]

/-- C6: for every sentence sequence, chunk_size and overlap, the position
fields of the produced chunks form the dense 0-based sequence 0,1,2,…
with no gaps: the i-th chunk in output order has position i. -/
theorem C6_positions_dense (chunk_size overlap : Nat)
    (sentences : List String) (i : Nat)
    (h : i < (splitChunks chunk_size overlap sentences).length) :
    ((splitChunks chunk_size overlap sentences).get ⟨i, h⟩).position = i := by
  have hd := posDense_splitChunks chunk_size overlap sentences i h
  rwa [List.getD_eq_getElem _ default h] at hd

/-- C6 (witness): dense positions on a concrete two-chunk split. -/
theorem C6_witness :
    ((splitChunks 2 0 ["alpha beta", "gamma delta"]).get
      ⟨1, by decide⟩).position = 1 :=
  C6_positions_dense 2 0 ["alpha beta", "gamma delta"] 1 (by decide)

/-- C7 (counterexample): the code never clamps the cosine value: on an
engine whose chunk embedding is antipodal to the query (engine produced by
indexing, first conjunct), `min_similarity = -2` lets a result with
relevance −1 ∉ [0,1] through. -/
theorem C7_counterexample :
    (index_document (fun _ => ["alpha beta"]) (fun _ => [-1]) RAGEngine.init
        ("alpha beta") [] 400 50) = (true, engNeg) ∧
    (search engNeg [1] 3 (-2 : ℝ)).map (fun r => r.relevance) = [(-1:ℝ)] ∧
    ((-1:ℝ) < 0) := by
  refine ⟨by decide, ?_, by norm_num⟩
  rw [search_engNeg_eval]
  rfl

/-- C7 (amended): every returned relevance is a raw cosine similarity, so
it lies in [-1,1]; whenever `min_similarity ≥ 0` (as with the default 0.3)
every returned result's relevance lies in [0,1]. -/
theorem C7_amended (e : RAGEngine) (q : List ℚ) (k : Nat) (m : ℝ)
    (hm : 0 ≤ m) :
    ∀ r ∈ search e q k m, 0 ≤ r.relevance ∧ r.relevance ≤ 1 := by
  intro r hr
  unfold search at hr
  cases hce : e.chunk_embeddings with
  | none =>
    rw [hce] at hr
    simp at hr
  | some embs =>
    rw [hce] at hr
    dsimp only at hr
    by_cases hch : e.chunks.isEmpty
    · rw [if_pos hch] at hr
      simp at hr
    · rw [if_neg hch] at hr
      obtain ⟨idx, hidx, rfl, hge⟩ := mem_rankFilter hr
      refine ⟨le_trans hm hge, ?_⟩
      have hmem : (embs.map fun v => cosSim q v).getD idx default ∈
          embs.map fun v => cosSim q v := by
        rw [List.getD_eq_getElem _ _ hidx]
        exact List.getElem_mem _
      obtain ⟨w, _, heq⟩ := List.mem_map.mp hmem
      show (embs.map fun v => cosSim q v).getD idx default ≤ 1
      rw [← heq]
      exact cosSim_le_one q w

/-- C7 (witness): the amended bound at the concrete result of a concrete
search (`min_similarity = 3/10 ≥ 0`). -/
theorem C7_witness :
    (0:ℝ) ≤ 3/10 ∧
    0 ≤ ({ text := "alpha beta", relevance := 1, position := 0,
           word_count := 2 } : SearchResult ℝ).relevance ∧
    ({ text := "alpha beta", relevance := 1, position := 0,
       word_count := 2 } : SearchResult ℝ).relevance ≤ 1 := by
  refine ⟨by norm_num, ?_, ?_⟩ <;>
  · have h := C7_amended engOne [1] 3 (3/10 : ℝ) (by norm_num)
      ({ text := "alpha beta", relevance := 1, position := 0,
         word_count := 2 } : SearchResult ℝ)
      (by rw [search_engOne_eval]; exact List.mem_singleton_self _)
    first
    | exact h.1
    | exact h.2

/-- C8: `search` reads only the indexed state (`chunks`,
`chunk_embeddings`) and its arguments: two engines agreeing on that state
— with identical query, top_k and min_similarity — yield identical result
sequences; in particular re-running `search` on a fixed state is
deterministic, with no hidden randomness. -/
theorem C8_search_deterministic (e1 e2 : RAGEngine) (q : List ℚ) (k : Nat)
    (m : ℝ) (hc : e1.chunks = e2.chunks)
    (he : e1.chunk_embeddings = e2.chunk_embeddings) :
    search e1 q k m = search e2 q k m := by
  unfold search
  rw [hc, he]

/-- C8 (witness): two engines differing only in metadata give the same
results. -/
theorem C8_witness :
    search { chunks := [chunkA], chunk_embeddings := some [[1]],
             metadata := [("author", "x")] } [1] 3 (3/10 : ℝ) =
      search engOne [1] 3 (3/10 : ℝ) :=
  C8_search_deterministic _ _ [1] 3 (3/10 : ℝ) (by decide) (by decide)

/-- C9: on an indexed engine with at least one chunk whose similarity
reaches `min_similarity`, calling `search` with `top_k = 0` returns
exactly one result rather than zero: the `top_k` bound is only checked
after a result has been appended. -/
theorem C9_top0_returns_one (e : RAGEngine) (embs : List (List ℚ))
    (q : List ℚ) (m : ℝ) (hce : e.chunk_embeddings = some embs)
    (hch : e.chunks.isEmpty = false)
    (hex : ∃ v ∈ embs.map (fun w => cosSim q w), m ≤ v) :
    (search e q 0 m).length = 1 := by
  unfold search
  rw [hce]
  dsimp only
  rw [if_neg (by simp [hch])]
  exact length_rankFilter_top0 _ e.chunks m hex

/-- C9 (witness): `top_k = 0` on `engOne` with its single similarity
1 ≥ 3/10 returns exactly one result. -/
theorem C9_witness :
    engOne.chunk_embeddings = some [[1]] ∧
    engOne.chunks.isEmpty = false ∧
    (search engOne [1] 0 (3/10 : ℝ)).length = 1 := by
  refine ⟨rfl, rfl, ?_⟩
  refine C9_top0_returns_one engOne [[1]] [1] (3/10 : ℝ) rfl rfl ?_
  refine ⟨cosSim [1] [1], by simp, ?_⟩
  rw [cosSim_one_one]
  norm_num

/-- C10: after any `indexDocument` call that returns false, every
subsequent `search` returns the empty sequence: the chunk list is cleared
before validation, and the empty chunk list short-circuits `search`. -/
theorem C10_search_empty_after_failed_index (st : String → List String)
    (enc : String → List ℚ) (e : RAGEngine) (txt : String)
    (meta : List (String × String)) (cs ov : Nat)
    (h : (index_document st enc e txt meta cs ov).1 = false)
    (q : List ℚ) (k : Nat) (m : ℝ) :
    search (index_document st enc e txt meta cs ov).2 q k m = [] :=
  search_eq_nil_of_chunks_nil _ q k m
    (index_document_false_chunks st enc e txt meta cs ov h)

/-- C10 (witness): a failed re-index of `engOne` on empty text, after
which search returns []. -/
theorem C10_witness :
    (index_document (fun _ => []) (fun _ => []) engOne ("") [] 400 50).1 =
      false ∧
    search (index_document (fun _ => []) (fun _ => []) engOne ("") [] 400
      50).2 [1] 3 (3/10 : ℝ) = [] :=
  ⟨by decide,
    C10_search_empty_after_failed_index (fun _ => []) (fun _ => []) engOne
      ("") [] 400 50 (by decide) [1] 3 (3/10 : ℝ)⟩
